import Mathlib

/-!
Shallow embedding of the QtWaves synthesis engine (src/mutils.py and the
engine part of src/main.py), with theorems checking the specification's
claims against it.  Samples are real numbers; numpy arrays are lists of
reals; a Python `KeyError` on the shape dictionary is an explicit
`ConfigurationError` value.
-/

open Real

/-- Real-valued remainder `np.mod x p = x - p * ⌊x / p⌋`, used by
`scipy.signal.sawtooth` and `scipy.signal.square` to reduce the phase into
one period. -/
noncomputable def npMod (x p : ℝ) : ℝ := x - p * ⌊x / p⌋

/-- `scipy.signal.sawtooth(t, width)` for `0 ≤ width ≤ 1`: within each 2π
period the wave rises from -1 to 1 on `[0, width·2π)` and falls back on the
rest of the period. -/
noncomputable def signal_sawtooth (t width : ℝ) : ℝ :=
  if npMod t (2 * π) < width * (2 * π) then npMod t (2 * π) / (π * width) - 1
  else (π * (width + 1) - npMod t (2 * π)) / (π * (1 - width))

/-- `scipy.signal.square(t, duty)`: +1 while the phase within the 2π period
is below `duty·2π`, -1 afterwards. -/
noncomputable def signal_square (t duty : ℝ) : ℝ :=
  if npMod t (2 * π) < duty * (2 * π) then 1 else -1

/-- mutils.genSine. -/
noncomputable def genSine (freq t : ℝ) : ℝ := Real.sin (2 * π * freq * t)

/-- mutils.genTriangle: `signal.sawtooth(2π·freq·t, 0.5)`. -/
noncomputable def genTriangle (freq t : ℝ) : ℝ := signal_sawtooth (2 * π * freq * t) 0.5

/-- mutils.genSawtooth: `signal.sawtooth(2π·freq·t)` (default width 1). -/
noncomputable def genSawtooth (freq t : ℝ) : ℝ := signal_sawtooth (2 * π * freq * t) 1

/-- mutils.genSquare: `signal.square(2π·freq·t)` (default duty 0.5). -/
noncomputable def genSquare (freq t : ℝ) : ℝ := signal_square (2 * π * freq * t) 0.5

/-- The error raised when `gen_wave` looks up an unknown shape: the Python
`KeyError` on the `waveGens` dict, which the specification's taxonomy calls
ConfigurationError. -/
inductive ConfigurationError where
  | unknownShape (shape : String)
  deriving DecidableEq

/-- The `waveGens` dictionary inside mutils.WaveInfo.gen_wave: shape name →
generator function; any other key fails the lookup. -/
noncomputable def waveGens (shape : String) : Option (ℝ → ℝ → ℝ) :=
  if shape = "sine" then some genSine
  else if shape = "sawtooth" then some genSawtooth
  else if shape = "square" then some genSquare
  else if shape = "triangle" then some genTriangle
  else none

/-- `np.linspace(start, stop, num, endpoint=False)`: `num` evenly spaced
points `start + k·step` with step `(stop - start)/num`, right endpoint
excluded. -/
noncomputable def linspace (start stop : ℝ) (num : ℕ) : List ℝ :=
  (List.range num).map (fun k : ℕ => start + (k : ℝ) * ((stop - start) / num))

/-- mutils.WaveInfo: one oscillator (shape, duration in whole seconds,
frequency, amplitude).  The GUI parses the duration with `int(...)` and the
specification restricts it to positive integers, so it is modelled as ℕ. -/
structure WaveInfo where
  shape : String
  duration : ℕ
  freq : ℝ
  amplitude : ℝ

/-- mutils.WaveInfo.gen_wave: look the shape up in `waveGens` (failing on an
unknown key), sample the generator on `linspace 0 duration (duration*rate)`
and scale elementwise by the amplitude (`np.multiply`). -/
noncomputable def WaveInfo.gen_wave (w : WaveInfo) (rate : ℕ) :
    Except ConfigurationError (List ℝ) :=
  match waveGens w.shape with
  | none => .error (.unknownShape w.shape)
  | some gen =>
      .ok ((linspace 0 w.duration (w.duration * rate)).map
        (fun t => gen w.freq t * w.amplitude))

/-- One coefficient of `np.fft.rfft`: the k-th one-sided DFT coefficient
`Σ_j x_j · exp(-2πi·j·k/N)` of the real input of length `N`. -/
noncomputable def rfft_coeff (x : List ℝ) (k : ℕ) : ℂ :=
  ∑ j ∈ Finset.range x.length,
    (x.getD j 0 : ℂ) * Complex.exp (-(2 * π * j * k / x.length : ℝ) * Complex.I)

/-- The `np.abs(np.fft.rfft(x))` of mutils.get_fft: the absolute values of
the `N/2 + 1` one-sided coefficients. -/
noncomputable def rfft_abs (x : List ℝ) : List ℝ :=
  (List.range (x.length / 2 + 1)).map (fun k => Complex.abs (rfft_coeff x k))

/-- `np.fft.rfftfreq(n, d)`: the `n/2 + 1` sample frequencies `k · 1/(n·d)`. -/
noncomputable def rfftfreq (n : ℕ) (d : ℝ) : List ℝ :=
  (List.range (n / 2 + 1)).map (fun k : ℕ => (k : ℝ) * (1 / (n * d)))

/-- mutils.get_fft: scale the buffer by 2⁻³¹, take the one-sided real FFT of
it, and return (bin frequencies, coefficient magnitudes).  The Python
function's local `length_in_s` and `time` variables are dead code and not
modelled. -/
noncomputable def get_fft (sampFreq : ℕ) (sound : List ℝ) : List ℝ × List ℝ :=
  let sound2 := sound.map (fun v => v / 2 ^ 31)
  let freq := rfftfreq sound2.length (1 / (sampFreq : ℝ))
  let fft_spectrum_abs := rfft_abs sound2
  (freq, fft_spectrum_abs)

/-- The engine state of main.PyQtLayout: the fields the synthesis engine
reads and writes.  Widgets, canvas and the file system are GUI glue outside
the model. -/
structure MixState where
  current_wave : String
  max_dur : ℕ
  wave_objects : List WaveInfo
  rate : ℕ
  plot_all : Bool

/-- PyQtLayout.__init__: current_wave "", max_dur 3, no waves, rate 44100,
plot_all off. -/
def initState : MixState :=
  { current_wave := "", max_dur := 3, wave_objects := [], rate := 44100, plot_all := false }

/-- One iteration of the accumulation loop of update_plot: right-pad the
current wave with zeros when it is shorter than the accumulator
(`np.pad(current, (0, gap))`), then add elementwise (`final_vec += current`). -/
def mixStep (acc cur : List ℝ) : List ℝ :=
  let padded := if cur.length < acc.length
    then cur ++ List.replicate (acc.length - cur.length) 0
    else cur
  List.zipWith (fun a b => a + b) acc padded

/-- The for-loop of update_plot: generate each wave at the given rate
(propagating a shape-lookup error) and fold it into the accumulator. -/
noncomputable def mixLoop (rate : ℕ) : List WaveInfo → List ℝ → Except ConfigurationError (List ℝ)
  | [], acc => .ok acc
  | v :: rest, acc =>
    match v.gen_wave rate with
    | .error e => .error e
    | .ok current => mixLoop rate rest (mixStep acc current)

/-- main.PyQtLayout.update_plot, engine part: with no waves present nothing
is computed and the state is untouched; otherwise the padded waves are
summed into `final_vec`, a zero vector of length max_dur·rate, the output
file name `wave_sum_<n>.wav` becomes current_wave, and the aggregate buffer
is returned (in the program it goes to the FFT plot, the wav writer and the
player, all outside the model). -/
noncomputable def update_plot (s : MixState) :
    Except ConfigurationError (MixState × Option (List ℝ)) :=
  if s.wave_objects.isEmpty then .ok (s, none)
  else
    match mixLoop s.rate s.wave_objects (List.replicate (s.max_dur * s.rate) 0) with
    | .error e => .error e
    | .ok final_vec =>
      .ok ({ s with current_wave := "wave_sum_" ++ toString s.wave_objects.length ++ ".wav" },
           some final_vec)

/-- update_plot run for its state change alone: a raised shape error leaves
the already-mutated fields as they are (the Python exception propagates after
the in-place mutations have happened). -/
noncomputable def runPlot (s : MixState) : MixState :=
  match update_plot s with
  | .ok (s2, _) => s2
  | .error _ => s

/-- main.PyQtLayout.addWave, engine part, the text fields already parsed into
a WaveInfo: raise max_dur when the new duration exceeds it, append the wave,
then update_plot. -/
noncomputable def addWave (s : MixState) (w : WaveInfo) : MixState :=
  let s1 := if s.max_dur < w.duration then { s with max_dur := w.duration } else s
  let s2 := { s1 with wave_objects := s1.wave_objects ++ [w] }
  runPlot s2

/-- main.PyQtLayout.clear_wave_files, engine part: the wav files are deleted
(file IO, outside the model), the wave list is emptied, and update_plot runs
on the now-empty state. -/
noncomputable def clear_wave_files (s : MixState) : MixState :=
  runPlot { s with wave_objects := [] }

/-- main.PyQtLayout.plot_all_toggle: record the checkbox state and replot. -/
noncomputable def plot_all_toggle (s : MixState) (b : Bool) : MixState :=
  runPlot { s with plot_all := b }

/-- The mixer states reachable in a session, paired with the durations of
every component ever added, in order: the session starts at initState and
each step is one of the user actions that touch the engine state (add wave,
reset, toggle plot-all; play changes nothing). -/
inductive Reaches : List ℕ → MixState → Prop where
  | init : Reaches [] initState
  | add {ds : List ℕ} {s : MixState} (w : WaveInfo) :
      Reaches ds s → Reaches (ds ++ [w.duration]) (addWave s w)
  | clear {ds : List ℕ} {s : MixState} :
      Reaches ds s → Reaches ds (clear_wave_files s)
  | toggle {ds : List ℕ} {s : MixState} (b : Bool) :
      Reaches ds s → Reaches ds (plot_all_toggle s b)

/-! ### Basic lemmas about the embedded primitives -/

theorem linspace_length (a b : ℝ) (n : ℕ) : (linspace a b n).length = n := by
  unfold linspace
  rw [List.length_map, List.length_range]

theorem range_map_getD (f : ℕ → ℝ) (n k : ℕ) (h : k < n) :
    ((List.range n).map f).getD k 0 = f k := by
  rw [List.getD_eq_getElem _ _ (by simp [h])]
  simp

theorem linspace_getD (a b : ℝ) (n k : ℕ) (h : k < n) :
    (linspace a b n).getD k 0 = a + k * ((b - a) / n) := by
  unfold linspace
  exact range_map_getD _ n k h

theorem getD_append_replicate_zero (xs : List ℝ) (m k : ℕ) :
    (xs ++ List.replicate m (0 : ℝ)).getD k 0 = xs.getD k 0 := by
  induction xs generalizing k with
  | nil =>
    simp only [List.nil_append, List.getD_nil]
    induction m generalizing k with
    | zero => simp
    | succ m ih =>
      cases k with
      | zero => simp [List.replicate_succ]
      | succ k =>
        rw [List.replicate_succ, List.getD_cons_succ]
        exact ih k
  | cons a xs ih =>
    cases k with
    | zero => simp
    | succ k => simpa using ih k

theorem getD_zipWith_add (x y : List ℝ) (h : x.length = y.length) (k : ℕ) :
    (List.zipWith (fun a b => a + b) x y).getD k 0 = x.getD k 0 + y.getD k 0 := by
  induction x generalizing y k with
  | nil =>
    cases y with
    | nil => simp
    | cons b ys => simp at h
  | cons a xs ih =>
    cases y with
    | nil => simp at h
    | cons b ys =>
      cases k with
      | zero => simp
      | succ k =>
        simp only [List.zipWith_cons_cons, List.getD_cons_succ]
        exact ih ys (by simpa using h) k

theorem mixStep_length (acc cur : List ℝ) : (mixStep acc cur).length = acc.length := by
  unfold mixStep
  by_cases h : cur.length < acc.length <;> simp [h] <;> omega

theorem mixStep_getD (acc cur : List ℝ) (h : cur.length ≤ acc.length) (k : ℕ) :
    (mixStep acc cur).getD k 0 = acc.getD k 0 + cur.getD k 0 := by
  unfold mixStep
  by_cases hlt : cur.length < acc.length
  · simp only [hlt, if_true]
    rw [getD_zipWith_add _ _ (by simp; omega), getD_append_replicate_zero]
  · have heq : cur.length = acc.length := le_antisymm h (not_lt.mp hlt)
    simp only [hlt, if_false]
    exact getD_zipWith_add _ _ heq.symm k

theorem mixLoop_length (rate : ℕ) (ws : List WaveInfo) (acc out : List ℝ)
    (h : mixLoop rate ws acc = .ok out) : out.length = acc.length := by
  induction ws generalizing acc with
  | nil =>
    unfold mixLoop at h
    cases h
    rfl
  | cons v rest ih =>
    unfold mixLoop at h
    cases hg : v.gen_wave rate with
    | error e => rw [hg] at h; cases h
    | ok current =>
      rw [hg] at h
      have := ih _ h
      rw [this, mixStep_length]

theorem gen_wave_eq (w : WaveInfo) (rate : ℕ) (g : ℝ → ℝ → ℝ)
    (hg : waveGens w.shape = some g) :
    w.gen_wave rate = .ok ((linspace 0 w.duration (w.duration * rate)).map
      (fun t => g w.freq t * w.amplitude)) := by
  unfold WaveInfo.gen_wave
  rw [hg]

theorem gen_wave_length (w : WaveInfo) (rate : ℕ) (g : ℝ → ℝ → ℝ)
    (hg : waveGens w.shape = some g) (buf : List ℝ)
    (hbuf : w.gen_wave rate = .ok buf) : buf.length = w.duration * rate := by
  rw [gen_wave_eq w rate g hg] at hbuf
  cases hbuf
  simp [linspace_length]

theorem update_plot_empty (s : MixState) (h : s.wave_objects = []) :
    update_plot s = .ok (s, none) := by
  unfold update_plot
  simp [h]

theorem update_plot_fields (s s2 : MixState) (b : Option (List ℝ))
    (h : update_plot s = .ok (s2, b)) :
    s2.max_dur = s.max_dur ∧ s2.rate = s.rate ∧ s2.wave_objects = s.wave_objects ∧
      s2.plot_all = s.plot_all := by
  unfold update_plot at h
  split at h
  · cases h
    exact ⟨rfl, rfl, rfl, rfl⟩
  · split at h
    · cases h
    · cases h
      exact ⟨rfl, rfl, rfl, rfl⟩

theorem runPlot_fields (s : MixState) :
    (runPlot s).max_dur = s.max_dur ∧ (runPlot s).rate = s.rate ∧
      (runPlot s).wave_objects = s.wave_objects ∧ (runPlot s).plot_all = s.plot_all := by
  unfold runPlot
  split
  case h_1 s2 b heq => exact update_plot_fields s s2 b heq
  case h_2 => exact ⟨rfl, rfl, rfl, rfl⟩

theorem addWave_fields (s : MixState) (w : WaveInfo) :
    (addWave s w).max_dur = (if s.max_dur < w.duration then w.duration else s.max_dur) ∧
      (addWave s w).rate = s.rate ∧
      (addWave s w).wave_objects = s.wave_objects ++ [w] := by
  unfold addWave
  by_cases h : s.max_dur < w.duration <;>
    simp only [h, if_true, if_false] <;>
    exact ⟨(runPlot_fields _).1, (runPlot_fields _).2.1, (runPlot_fields _).2.2.1⟩

theorem clear_wave_files_eq (s : MixState) :
    clear_wave_files s = { s with wave_objects := [] } := by
  unfold clear_wave_files runPlot
  rw [update_plot_empty _ rfl]

theorem plot_all_toggle_fields (s : MixState) (b : Bool) :
    (plot_all_toggle s b).max_dur = s.max_dur ∧ (plot_all_toggle s b).rate = s.rate ∧
      (plot_all_toggle s b).wave_objects = s.wave_objects := by
  unfold plot_all_toggle
  exact ⟨(runPlot_fields _).1, (runPlot_fields _).2.1, (runPlot_fields _).2.2.1⟩

theorem le_foldl_max (ds : List ℕ) (a : ℕ) : a ≤ ds.foldl max a := by
  induction ds generalizing a with
  | nil => exact le_refl a
  | cons d rest ih => exact le_trans (le_max_left a d) (ih (max a d))

theorem foldl_max_of_le (ds : List ℕ) (a : ℕ) (h : ∀ d ∈ ds, d ≤ a) :
    ds.foldl max a = a := by
  induction ds with
  | nil => rfl
  | cons d rest ih =>
    have hd : max a d = a := max_eq_left (h d (List.mem_cons_self d rest))
    simp only [List.foldl_cons, hd]
    exact ih (fun x hx => h x (List.mem_cons_of_mem d hx))

/-- The session invariant: in every reachable state, max_dur is the fold of
max over the durations ever added, started at the initial value 3, and the
sample rate stays 44100. -/
theorem reaches_inv {ds : List ℕ} {s : MixState} (h : Reaches ds s) :
    s.max_dur = ds.foldl max 3 ∧ s.rate = 44100 := by
  induction h with
  | init => exact ⟨rfl, rfl⟩
  | add w hr ih =>
    refine ⟨?_, ?_⟩
    · rw [(addWave_fields _ w).1, List.foldl_append, List.foldl_cons, List.foldl_nil, ih.1]
      rcases Nat.lt_or_ge (List.foldl max 3 _) w.duration with hlt | hge
      · rw [if_pos hlt, max_eq_right (le_of_lt hlt)]
      · rw [if_neg (not_lt.mpr hge), max_eq_left hge]
    · rw [(addWave_fields _ w).2.1, ih.2]
  | clear hr ih =>
    rw [clear_wave_files_eq]
    exact ih
  | toggle b hr ih =>
    rw [(plot_all_toggle_fields _ b).2.1]
    exact ⟨(plot_all_toggle_fields _ b).1.trans ih.1, ih.2⟩

theorem getD_replicate_zero (n k : ℕ) : (List.replicate n (0 : ℝ)).getD k 0 = 0 := by
  rcases Nat.lt_or_ge k n with h | h
  · rw [List.getD_eq_getElem _ _ (by simpa using h)]
    simp
  · exact List.getD_eq_default _ _ (by simpa using h)

theorem gen_wave_ok_inv (w : WaveInfo) (rate : ℕ) (buf : List ℝ)
    (h : w.gen_wave rate = .ok buf) :
    ∃ g, waveGens w.shape = some g ∧
      buf = (linspace 0 (w.duration : ℝ) (w.duration * rate)).map
        (fun t => g w.freq t * w.amplitude) := by
  unfold WaveInfo.gen_wave at h
  split at h
  · cases h
  next g hg =>
    cases h
    exact ⟨g, hg, rfl⟩

theorem mixLoop_ok (rate : ℕ) (ws : List WaveInfo)
    (h : ∀ w ∈ ws, ∃ g, waveGens w.shape = some g) (acc : List ℝ) :
    ∃ out, mixLoop rate ws acc = .ok out := by
  induction ws generalizing acc with
  | nil => exact ⟨acc, rfl⟩
  | cons v rest ih =>
    obtain ⟨g, hg⟩ := h v (List.mem_cons_self v rest)
    rw [mixLoop, gen_wave_eq v rate g hg]
    exact ih (fun w hw => h w (List.mem_cons_of_mem v hw)) _

theorem update_plot_ok (s : MixState) (hne : s.wave_objects ≠ [])
    (h : ∀ w ∈ s.wave_objects, ∃ g, waveGens w.shape = some g) :
    ∃ s2 buf, update_plot s = .ok (s2, some buf) ∧
      buf.length = s.max_dur * s.rate := by
  obtain ⟨out, hout⟩ :=
    mixLoop_ok s.rate s.wave_objects h (List.replicate (s.max_dur * s.rate) 0)
  refine ⟨{ s with current_wave := "wave_sum_" ++ toString s.wave_objects.length ++ ".wav" },
    out, ?_, ?_⟩
  · unfold update_plot
    rw [if_neg (by simpa using hne), hout]
  · rw [mixLoop_length _ _ _ _ hout, List.length_replicate]

theorem update_plot_buf_length (s s2 : MixState) (buf : List ℝ)
    (h : update_plot s = .ok (s2, some buf)) : buf.length = s.max_dur * s.rate := by
  unfold update_plot at h
  split at h
  · simp at h
  · split at h
    · cases h
    next final_vec heq =>
      have hb : final_vec = buf := by
        have h2 := h
        rw [Except.ok.injEq, Prod.mk.injEq, Option.some.injEq] at h2
        exact h2.2
      rw [← hb, mixLoop_length _ _ _ _ heq, List.length_replicate]

/-! ### Claim theorems -/

/-- C9: with the component list empty, update_plot computes no buffer and
raises nothing, returning the mixer state entirely unchanged. -/
theorem C9_empty_mix_is_noop (s : MixState) (h : s.wave_objects = []) :
    update_plot s = .ok (s, none) :=
  update_plot_empty s h

/-- Witness for C9 at the freshly initialised state. -/
theorem C9_empty_mix_is_noop_witness : update_plot initState = .ok (initState, none) :=
  C9_empty_mix_is_noop initState rfl

/-- C10: clear resets the component list to empty while max_dur and the
sample rate keep their prior values. -/
theorem C10_clear_keeps_max_dur_and_rate (s : MixState) :
    (clear_wave_files s).wave_objects = [] ∧
    (clear_wave_files s).max_dur = s.max_dur ∧
    (clear_wave_files s).rate = s.rate := by
  rw [clear_wave_files_eq]
  exact ⟨rfl, rfl, rfl⟩

/-- C8: rendering a component whose shape is not one of the four supported
names fails with the ConfigurationError for that shape at every sample rate,
and rendering any of the four supported shapes never produces this error. -/
theorem C8_unknown_shape_is_rejected (w : WaveInfo) (rate : ℕ) :
    (w.shape ∉ (["sine", "sawtooth", "square", "triangle"] : List String) →
      w.gen_wave rate = .error (.unknownShape w.shape)) ∧
    (w.shape ∈ (["sine", "sawtooth", "square", "triangle"] : List String) →
      ∃ buf, w.gen_wave rate = .ok buf) := by
  constructor
  · intro h
    simp only [List.mem_cons, List.not_mem_nil, or_false, not_or] at h
    obtain ⟨h1, h2, h3, h4⟩ := h
    unfold WaveInfo.gen_wave waveGens
    simp [h1, h2, h3, h4]
  · intro h
    simp only [List.mem_cons, List.not_mem_nil, or_false] at h
    unfold WaveInfo.gen_wave waveGens
    rcases h with he | he | he | he <;> simp [he]

/-- C2 counterexample: after adding one component of duration 1 to a fresh
session, the only duration ever added is 1 (whose maximum is 1), yet
max_duration is 3, its initial value: max_duration is not the maximum of the
added durations. -/
theorem C2_cex_initial_three_dominates :
    Reaches [1] (addWave initState (WaveInfo.mk "sine" 1 440 1)) ∧
    (addWave initState (WaveInfo.mk "sine" 1 440 1)).max_dur = 3 ∧
    ([1] : List ℕ).foldl max 0 = 1 ∧ (3 : ℕ) ≠ 1 := by
  refine ⟨Reaches.add (WaveInfo.mk "sine" 1 440 1) Reaches.init, ?_, by decide, by decide⟩
  rw [(addWave_fields _ _).1]
  decide

/-- C2 (amended): in every reachable mixer state, max_duration equals the
maximum of its initial value 3 and all component durations ever added, and
it is monotonically non-decreasing: add updates it to the new component's
duration exactly when that duration exceeds it, a smaller duration leaves it
unchanged, and clear and the plot toggle never change it. -/
theorem C2_max_dur_fold_of_added (ds : List ℕ) (s : MixState) (h : Reaches ds s) :
    s.max_dur = ds.foldl max 3 ∧
    (∀ w : WaveInfo, (addWave s w).max_dur =
      (if s.max_dur < w.duration then w.duration else s.max_dur)) ∧
    (∀ w : WaveInfo, s.max_dur ≤ (addWave s w).max_dur) ∧
    (∀ w : WaveInfo, w.duration < s.max_dur → (addWave s w).max_dur = s.max_dur) ∧
    (clear_wave_files s).max_dur = s.max_dur ∧
    (∀ b : Bool, (plot_all_toggle s b).max_dur = s.max_dur) := by
  refine ⟨(reaches_inv h).1, fun w => (addWave_fields s w).1, ?_, ?_,
    by rw [clear_wave_files_eq], fun b => (plot_all_toggle_fields s b).1⟩
  · intro w
    rw [(addWave_fields s w).1]
    by_cases hc : s.max_dur < w.duration
    · simp only [hc, if_true]
      omega
    · simp only [hc, if_false]
      exact le_refl _
  · intro w hw
    rw [(addWave_fields s w).1, if_neg (by omega)]

/-- Witness for C2 (amended) at the freshly initialised state. -/
theorem C2_max_dur_fold_of_added_witness :
    initState.max_dur = ([] : List ℕ).foldl max 3 ∧
    (∀ w : WaveInfo, (addWave initState w).max_dur =
      (if initState.max_dur < w.duration then w.duration else initState.max_dur)) ∧
    (∀ w : WaveInfo, initState.max_dur ≤ (addWave initState w).max_dur) ∧
    (∀ w : WaveInfo, w.duration < initState.max_dur →
      (addWave initState w).max_dur = initState.max_dur) ∧
    (clear_wave_files initState).max_dur = initState.max_dur ∧
    (∀ b : Bool, (plot_all_toggle initState b).max_dur = initState.max_dur) :=
  C2_max_dur_fold_of_added [] initState Reaches.init

/-- C4 (amended): max_duration starts at 3 and in every reachable state is at
least 3, the sample rate staying 44100; when every component ever added in
the session has duration at most 3, max_duration is still exactly 3; and the
aggregate buffer of any mix has max_dur·rate samples, so such a session's
mixes have 3·44100 samples (each component right-padded with zeros) even
when all present components are shorter.  The original consequent,
conditioned only on the components present at mix time, fails once a longer
wave was added and then cleared. -/
theorem C4_buffer_padded_to_at_least_three (ds : List ℕ) (s : MixState)
    (h : Reaches ds s) :
    3 ≤ s.max_dur ∧ s.rate = 44100 ∧
    ((∀ d ∈ ds, d ≤ 3) → s.max_dur = 3) ∧
    (∀ s2 buf, update_plot s = .ok (s2, some buf) →
      buf.length = s.max_dur * s.rate) := by
  obtain ⟨hmax, hrate⟩ := reaches_inv h
  refine ⟨?_, hrate, ?_, fun s2 buf hup => update_plot_buf_length s s2 buf hup⟩
  · rw [hmax]
    exact le_foldl_max ds 3
  · intro hall
    rw [hmax]
    exact foldl_max_of_le ds 3 hall

/-- Witness for C4 (amended) at the freshly initialised state. -/
theorem C4_buffer_padded_to_at_least_three_witness :
    3 ≤ initState.max_dur ∧ initState.rate = 44100 ∧
    ((∀ d ∈ ([] : List ℕ), d ≤ 3) → initState.max_dur = 3) ∧
    (∀ s2 buf, update_plot initState = .ok (s2, some buf) →
      buf.length = initState.max_dur * initState.rate) :=
  C4_buffer_padded_to_at_least_three [] initState Reaches.init

/-- C4 counterexample: add a 5 s sine, reset, add a 1 s sine.  The resulting
state is reachable and every component present has duration 1 < 3, yet the
mix produces a buffer of 5·44100 samples, not 3·44100: clear left
max_duration at 5, so a mix of sub-3-second components need not be 3 seconds
long. -/
theorem C4_cex_short_mix_not_three_seconds :
    Reaches [5, 1]
      (addWave (clear_wave_files (addWave initState (WaveInfo.mk "sine" 5 440 1)))
        (WaveInfo.mk "sine" 1 440 1)) ∧
    (addWave (clear_wave_files (addWave initState (WaveInfo.mk "sine" 5 440 1)))
        (WaveInfo.mk "sine" 1 440 1)).wave_objects = [WaveInfo.mk "sine" 1 440 1] ∧
    (update_plot
        (addWave (clear_wave_files (addWave initState (WaveInfo.mk "sine" 5 440 1)))
          (WaveInfo.mk "sine" 1 440 1))).map
      (fun p => p.2.map List.length) = .ok (some (5 * 44100)) ∧
    (5 * 44100 : ℕ) ≠ 3 * 44100 := by
  have h3 : Reaches [5, 1]
      (addWave (clear_wave_files (addWave initState (WaveInfo.mk "sine" 5 440 1)))
        (WaveInfo.mk "sine" 1 440 1)) :=
    Reaches.add (WaveInfo.mk "sine" 1 440 1)
      (Reaches.clear (Reaches.add (WaveInfo.mk "sine" 5 440 1) Reaches.init))
  have hwo : (addWave (clear_wave_files (addWave initState (WaveInfo.mk "sine" 5 440 1)))
      (WaveInfo.mk "sine" 1 440 1)).wave_objects = [WaveInfo.mk "sine" 1 440 1] := by
    rw [(addWave_fields _ _).2.2, clear_wave_files_eq]
    rfl
  have hmax : (addWave (clear_wave_files (addWave initState (WaveInfo.mk "sine" 5 440 1)))
      (WaveInfo.mk "sine" 1 440 1)).max_dur = 5 :=
    (reaches_inv h3).1.trans (by decide)
  have hrate : (addWave (clear_wave_files (addWave initState (WaveInfo.mk "sine" 5 440 1)))
      (WaveInfo.mk "sine" 1 440 1)).rate = 44100 := (reaches_inv h3).2
  obtain ⟨s4, buf, heq, hlen⟩ :=
    update_plot_ok _ (by rw [hwo]; exact List.cons_ne_nil _ _)
      (by
        rw [hwo]
        intro w hw
        rw [List.mem_singleton] at hw
        subst hw
        exact ⟨genSine, rfl⟩)
  refine ⟨h3, hwo, ?_, by decide⟩
  rw [heq]
  have hred : (Except.ok (s4, some buf) :
      Except ConfigurationError (MixState × Option (List ℝ))).map
      (fun p => p.2.map List.length) = .ok (some buf.length) := rfl
  rw [hred, hlen, hmax, hrate]

/-- C3 counterexample: in the program, adding exactly a 1 s sine and a 2 s
sine to a fresh session and mixing gives an aggregate buffer of 3·44100
samples — not 2·44100 as claimed — because max_duration starts at 3. -/
theorem C3_cex_aggregate_is_not_two_seconds :
    Reaches [1, 2] (addWave (addWave initState (WaveInfo.mk "sine" 1 440 1))
      (WaveInfo.mk "sine" 2 440 1)) ∧
    (addWave (addWave initState (WaveInfo.mk "sine" 1 440 1))
      (WaveInfo.mk "sine" 2 440 1)).wave_objects =
      [WaveInfo.mk "sine" 1 440 1, WaveInfo.mk "sine" 2 440 1] ∧
    (update_plot (addWave (addWave initState (WaveInfo.mk "sine" 1 440 1))
        (WaveInfo.mk "sine" 2 440 1))).map
      (fun p => p.2.map List.length) = .ok (some (3 * 44100)) ∧
    (3 * 44100 : ℕ) ≠ 2 * 44100 := by
  have h2 : Reaches [1, 2] (addWave (addWave initState (WaveInfo.mk "sine" 1 440 1))
      (WaveInfo.mk "sine" 2 440 1)) :=
    Reaches.add (WaveInfo.mk "sine" 2 440 1)
      (Reaches.add (WaveInfo.mk "sine" 1 440 1) Reaches.init)
  have hwo : (addWave (addWave initState (WaveInfo.mk "sine" 1 440 1))
      (WaveInfo.mk "sine" 2 440 1)).wave_objects =
      [WaveInfo.mk "sine" 1 440 1, WaveInfo.mk "sine" 2 440 1] := by
    rw [(addWave_fields _ _).2.2, (addWave_fields _ _).2.2]
    rfl
  have hmax : (addWave (addWave initState (WaveInfo.mk "sine" 1 440 1))
      (WaveInfo.mk "sine" 2 440 1)).max_dur = 3 :=
    (reaches_inv h2).1.trans (by decide)
  have hrate : (addWave (addWave initState (WaveInfo.mk "sine" 1 440 1))
      (WaveInfo.mk "sine" 2 440 1)).rate = 44100 := (reaches_inv h2).2
  obtain ⟨s4, buf, heq, hlen⟩ :=
    update_plot_ok _ (by rw [hwo]; exact List.cons_ne_nil _ _)
      (by
        rw [hwo]
        intro w hw
        rw [List.mem_cons, List.mem_singleton] at hw
        rcases hw with hw | hw <;> subst hw <;> exact ⟨genSine, rfl⟩)
  refine ⟨h2, hwo, ?_, by decide⟩
  rw [heq]
  have hred : (Except.ok (s4, some buf) :
      Except ConfigurationError (MixState × Option (List ℝ))).map
      (fun p => p.2.map List.length) = .ok (some buf.length) := rfl
  rw [hred, hlen, hmax, hrate]

/-- A step of mixLoop with a successfully generated wave. -/
theorem mixLoop_cons_ok (rate : ℕ) (v : WaveInfo) (rest : List WaveInfo)
    (acc cur : List ℝ) (h : v.gen_wave rate = .ok cur) :
    mixLoop rate (v :: rest) acc = mixLoop rate rest (mixStep acc cur) := by
  rw [mixLoop, h]

/-- C3 (amended): mixing exactly a 1 s component and a 2 s component in a
state whose max_duration is 3 — as it is after adding just these two to a
fresh session, the initial value 3 never being exceeded — produces an
aggregate buffer of 3·R samples, not 2·R: the first R samples are the
elementwise sum of the two components' first-second samples, the next R
equal the second component's second-second samples alone (the first
component padded with zeros), and the final R samples are all zero. -/
theorem C3_mix_one_plus_two_seconds (s : MixState) (w1 w2 : WaveInfo)
    (b1 b2 : List ℝ) (hwo : s.wave_objects = [w1, w2])
    (hd1 : w1.duration = 1) (hd2 : w2.duration = 2) (hmax : s.max_dur = 3)
    (hR : 0 < s.rate)
    (hb1 : w1.gen_wave s.rate = .ok b1) (hb2 : w2.gen_wave s.rate = .ok b2) :
    ∃ s2 buf, update_plot s = .ok (s2, some buf) ∧
      buf.length = 3 * s.rate ∧
      (∀ k, k < s.rate → buf.getD k 0 = b1.getD k 0 + b2.getD k 0) ∧
      (∀ k, s.rate ≤ k → k < 2 * s.rate → buf.getD k 0 = b2.getD k 0) ∧
      (∀ k, 2 * s.rate ≤ k → k < 3 * s.rate → buf.getD k 0 = 0) := by
  obtain ⟨g1, hg1, _⟩ := gen_wave_ok_inv _ _ _ hb1
  obtain ⟨g2, hg2, _⟩ := gen_wave_ok_inv _ _ _ hb2
  have hl1 : b1.length = s.rate := by
    have hx := gen_wave_length w1 s.rate g1 hg1 b1 hb1
    rw [hd1, one_mul] at hx
    exact hx
  have hl2 : b2.length = 2 * s.rate := by
    have hx := gen_wave_length w2 s.rate g2 hg2 b2 hb2
    rw [hd2] at hx
    exact hx
  have hlinit : (List.replicate (s.max_dur * s.rate) (0 : ℝ)).length = 3 * s.rate := by
    rw [List.length_replicate, hmax]
  have hle1 : b1.length ≤ (List.replicate (s.max_dur * s.rate) (0 : ℝ)).length := by
    rw [hlinit, hl1]
    omega
  have hle2 : b2.length ≤ (mixStep (List.replicate (s.max_dur * s.rate) (0 : ℝ)) b1).length := by
    rw [mixStep_length, hlinit, hl2]
    omega
  have hml : mixLoop s.rate s.wave_objects (List.replicate (s.max_dur * s.rate) 0) =
      .ok (mixStep (mixStep (List.replicate (s.max_dur * s.rate) 0) b1) b2) := by
    rw [hwo, mixLoop_cons_ok _ _ _ _ _ hb1, mixLoop_cons_ok _ _ _ _ _ hb2, mixLoop]
  have hbufget : ∀ k, (mixStep (mixStep (List.replicate (s.max_dur * s.rate) (0 : ℝ)) b1) b2).getD k 0 =
      b1.getD k 0 + b2.getD k 0 := by
    intro k
    rw [mixStep_getD _ _ hle2 k, mixStep_getD _ _ hle1 k, getD_replicate_zero, zero_add]
  refine ⟨{ s with current_wave := "wave_sum_" ++ toString s.wave_objects.length ++ ".wav" },
    mixStep (mixStep (List.replicate (s.max_dur * s.rate) 0) b1) b2, ?_, ?_, ?_, ?_, ?_⟩
  · unfold update_plot
    rw [if_neg (by rw [hwo]; simp), hml]
  · rw [mixStep_length, mixStep_length, hlinit]
  · intro k _
    exact hbufget k
  · intro k hk1 _
    rw [hbufget k, List.getD_eq_default _ _ (by rw [hl1]; exact hk1), zero_add]
  · intro k hk1 hk2
    rw [hbufget k, List.getD_eq_default _ _ (by rw [hl1]; omega),
      List.getD_eq_default _ _ (by rw [hl2]; exact hk1), add_zero]

/-- A 1 s sine wave used to witness the mixing theorem. -/
noncomputable def mixW1 : WaveInfo := WaveInfo.mk "sine" 1 440 1

/-- A 2 s triangle wave used to witness the mixing theorem. -/
noncomputable def mixW2 : WaveInfo := WaveInfo.mk "triangle" 2 300 2

/-- A mixer state holding exactly the two witness waves at rate 2. -/
noncomputable def mixS : MixState := MixState.mk "" 3 [mixW1, mixW2] 2 false

/-- The rendered buffer of the first witness wave. -/
noncomputable def mixB1 : List ℝ :=
  (linspace 0 (mixW1.duration : ℝ) (mixW1.duration * mixS.rate)).map
    (fun t => genSine mixW1.freq t * mixW1.amplitude)

/-- The rendered buffer of the second witness wave. -/
noncomputable def mixB2 : List ℝ :=
  (linspace 0 (mixW2.duration : ℝ) (mixW2.duration * mixS.rate)).map
    (fun t => genTriangle mixW2.freq t * mixW2.amplitude)

/-- Witness for C3 (amended) on a concrete 1 s + 2 s pair at rate 2. -/
theorem C3_mix_one_plus_two_seconds_witness :
    ∃ s2 buf, update_plot mixS = .ok (s2, some buf) ∧
      buf.length = 3 * mixS.rate ∧
      (∀ k, k < mixS.rate → buf.getD k 0 = mixB1.getD k 0 + mixB2.getD k 0) ∧
      (∀ k, mixS.rate ≤ k → k < 2 * mixS.rate → buf.getD k 0 = mixB2.getD k 0) ∧
      (∀ k, 2 * mixS.rate ≤ k → k < 3 * mixS.rate → buf.getD k 0 = 0) :=
  C3_mix_one_plus_two_seconds mixS mixW1 mixW2 mixB1 mixB2 rfl rfl rfl rfl
    (by decide) rfl rfl

/-! ### Range of the unit waveforms -/

theorem npMod_mem (x p : ℝ) (hp : 0 < p) : 0 ≤ npMod x p ∧ npMod x p < p := by
  have hne : p ≠ 0 := ne_of_gt hp
  have hx : p * (x / p) = x := by field_simp
  constructor
  · have h1 : (⌊x / p⌋ : ℝ) ≤ x / p := Int.floor_le _
    have h2 := mul_le_mul_of_nonneg_left h1 (le_of_lt hp)
    rw [hx] at h2
    unfold npMod
    linarith
  · have h1 : x / p < ⌊x / p⌋ + 1 := Int.lt_floor_add_one _
    have h2 := mul_lt_mul_of_pos_left h1 hp
    rw [hx] at h2
    have h3 : p * ((⌊x / p⌋ : ℝ) + 1) = p * ⌊x / p⌋ + p := by ring
    unfold npMod
    linarith

theorem genSine_bound (f t : ℝ) : |genSine f t| ≤ 1 := abs_sin_le_one _

theorem signal_sawtooth_one_bound (t : ℝ) : |signal_sawtooth t 1| ≤ 1 := by
  obtain ⟨h0, h1⟩ := npMod_mem t (2 * π) (by positivity)
  unfold signal_sawtooth
  rw [if_pos (by rw [one_mul]; exact h1), mul_one, abs_le]
  constructor
  · have hdiv : 0 ≤ npMod t (2 * π) / π := div_nonneg h0 (le_of_lt pi_pos)
    linarith
  · have hdiv : npMod t (2 * π) / π ≤ 2 := by
      rw [div_le_iff₀ pi_pos]
      linarith
    linarith

theorem signal_sawtooth_half_bound (t : ℝ) : |signal_sawtooth t 0.5| ≤ 1 := by
  obtain ⟨h0, h1⟩ := npMod_mem t (2 * π) (by positivity)
  have hc0 : (0 : ℝ) < π * 0.5 := by
    have := pi_pos
    nlinarith
  unfold signal_sawtooth
  by_cases hc : npMod t (2 * π) < 0.5 * (2 * π)
  · rw [if_pos hc, abs_le]
    have hm : npMod t (2 * π) < π := by
      have heq : (0.5 : ℝ) * (2 * π) = π := by ring
      rw [heq] at hc
      exact hc
    constructor
    · have hdiv : 0 ≤ npMod t (2 * π) / (π * 0.5) := div_nonneg h0 (le_of_lt hc0)
      linarith
    · have hdiv : npMod t (2 * π) / (π * 0.5) ≤ 2 := by
        rw [div_le_iff₀ hc0]
        have h2 : (2 : ℝ) * (π * 0.5) = π := by ring
        linarith
      linarith
  · rw [if_neg hc, abs_le]
    have hm : π ≤ npMod t (2 * π) := by
      push_neg at hc
      have heq : (0.5 : ℝ) * (2 * π) = π := by ring
      rw [heq] at hc
      exact hc
    have hc0b : (0 : ℝ) < π * (1 - 0.5) := by
      have := pi_pos
      nlinarith
    constructor
    · rw [le_div_iff₀ hc0b]
      nlinarith [h1]
    · rw [div_le_one hc0b]
      nlinarith [hm]

theorem signal_square_bound (t d : ℝ) : |signal_square t d| ≤ 1 := by
  unfold signal_square
  split_ifs <;> simp

theorem genSawtooth_bound (f t : ℝ) : |genSawtooth f t| ≤ 1 :=
  signal_sawtooth_one_bound _

theorem genTriangle_bound (f t : ℝ) : |genTriangle f t| ≤ 1 :=
  signal_sawtooth_half_bound _

theorem genSquare_bound (f t : ℝ) : |genSquare f t| ≤ 1 :=
  signal_square_bound _ _

theorem waveGens_unit_bound (shape : String) (g : ℝ → ℝ → ℝ)
    (hg : waveGens shape = some g) (f t : ℝ) : |g f t| ≤ 1 := by
  unfold waveGens at hg
  split_ifs at hg
  · cases hg; exact genSine_bound f t
  · cases hg; exact genSawtooth_bound f t
  · cases hg; exact genSquare_bound f t
  · cases hg; exact genTriangle_bound f t

/-- C7: every sample of a successfully rendered buffer lies in
[-|amplitude|, |amplitude|]: the buffer is the unit waveform — which ranges
over [-1, 1] for each of the four supported shapes — multiplied elementwise
by the amplitude. -/
theorem C7_samples_within_amplitude (w : WaveInfo) (R : ℕ) (buf : List ℝ)
    (h : w.gen_wave R = .ok buf) :
    ∃ g, waveGens w.shape = some g ∧ (∀ f t, |g f t| ≤ 1) ∧
      buf = (linspace 0 (w.duration : ℝ) (w.duration * R)).map
        (fun t => g w.freq t * w.amplitude) ∧
      ∀ x ∈ buf, -|w.amplitude| ≤ x ∧ x ≤ |w.amplitude| := by
  obtain ⟨g, hg, hbe⟩ := gen_wave_ok_inv w R buf h
  refine ⟨g, hg, fun f t => waveGens_unit_bound w.shape g hg f t, hbe, ?_⟩
  intro x hx
  rw [hbe, List.mem_map] at hx
  obtain ⟨t, _, rfl⟩ := hx
  have hb := waveGens_unit_bound w.shape g hg w.freq t
  have habs : |g w.freq t * w.amplitude| ≤ |w.amplitude| := by
    rw [abs_mul]
    exact mul_le_of_le_one_left (abs_nonneg _) hb
  exact abs_le.mp habs

/-- A 2 s sawtooth of amplitude -3 used to witness the amplitude bound. -/
noncomputable def ampW : WaveInfo := WaveInfo.mk "sawtooth" 2 100 (-3)

/-- The rendered buffer of the amplitude witness wave at rate 1. -/
noncomputable def ampBuf : List ℝ :=
  (linspace 0 (ampW.duration : ℝ) (ampW.duration * 1)).map
    (fun t => genSawtooth ampW.freq t * ampW.amplitude)

/-- Witness for C7 on the concrete sawtooth buffer. -/
theorem C7_samples_within_amplitude_witness :
    ∃ g, waveGens ampW.shape = some g ∧ (∀ f t, |g f t| ≤ 1) ∧
      ampBuf = (linspace 0 (ampW.duration : ℝ) (ampW.duration * 1)).map
        (fun t => g ampW.freq t * ampW.amplitude) ∧
      ∀ x ∈ ampBuf, -|ampW.amplitude| ≤ x ∧ x ≤ |ampW.amplitude| :=
  C7_samples_within_amplitude ampW 1 ampBuf rfl

/-- C1: for a supported shape, positive integer duration D and positive
integer rate R, gen_wave returns a buffer of exactly D·R samples; the time
points are evenly spaced with sample k at time k/R, all lying in the
half-open interval [0, D) with the right endpoint excluded, and sample k is
the generator at time k/R scaled by the amplitude. -/
theorem C1_render_length_and_timebase (w : WaveInfo) (R : ℕ) (g : ℝ → ℝ → ℝ)
    (hg : waveGens w.shape = some g) (hD : 0 < w.duration) (hR : 0 < R) :
    ∃ buf, w.gen_wave R = .ok buf ∧ buf.length = w.duration * R ∧
      ∀ k, k < w.duration * R →
        (linspace 0 (w.duration : ℝ) (w.duration * R)).getD k 0 = (k : ℝ) / (R : ℝ) ∧
        0 ≤ (k : ℝ) / (R : ℝ) ∧ (k : ℝ) / (R : ℝ) < (w.duration : ℝ) ∧
        buf.getD k 0 = g w.freq ((k : ℝ) / (R : ℝ)) * w.amplitude := by
  refine ⟨_, gen_wave_eq w R g hg, ?_, ?_⟩
  · rw [List.length_map, linspace_length]
  · intro k hk
    have hDne : ((w.duration : ℕ) : ℝ) ≠ 0 :=
      Nat.cast_ne_zero.mpr (Nat.pos_iff_ne_zero.mp hD)
    have hRpos : (0 : ℝ) < (R : ℝ) := by exact_mod_cast hR
    have hRne : ((R : ℕ) : ℝ) ≠ 0 := ne_of_gt hRpos
    have ht : (linspace 0 (w.duration : ℝ) (w.duration * R)).getD k 0 = (k : ℝ) / (R : ℝ) := by
      rw [linspace_getD _ _ _ k hk, sub_zero, zero_add]
      push_cast
      field_simp
      ring
    have hklt : (k : ℝ) < (w.duration : ℝ) * (R : ℝ) := by
      exact_mod_cast hk
    refine ⟨ht, div_nonneg (Nat.cast_nonneg k) (le_of_lt hRpos), ?_, ?_⟩
    · rw [div_lt_iff₀ hRpos]
      exact hklt
    · have hklen : k < ((linspace 0 (w.duration : ℝ) (w.duration * R)).map
          (fun t => g w.freq t * w.amplitude)).length := by
        rw [List.length_map, linspace_length]
        exact hk
      have hklen2 : k < (linspace 0 (w.duration : ℝ) (w.duration * R)).length := by
        rw [linspace_length]
        exact hk
      have helem : (linspace 0 (w.duration : ℝ) (w.duration * R))[k] = (k : ℝ) / (R : ℝ) :=
        (List.getD_eq_getElem _ 0 hklen2).symm.trans ht
      rw [List.getD_eq_getElem _ _ hklen]
      rw [List.getElem_map, helem]

/-- A 1 s square wave used to witness the rendering theorem. -/
noncomputable def renderW : WaveInfo := WaveInfo.mk "square" 1 440 1

/-- Witness for C1 on the 1 s square wave at rate 2. -/
theorem C1_render_length_and_timebase_witness :
    ∃ buf, renderW.gen_wave 2 = .ok buf ∧ buf.length = renderW.duration * 2 ∧
      ∀ k, k < renderW.duration * 2 →
        (linspace 0 (renderW.duration : ℝ) (renderW.duration * 2)).getD k 0 =
          (k : ℝ) / ((2 : ℕ) : ℝ) ∧
        0 ≤ (k : ℝ) / ((2 : ℕ) : ℝ) ∧ (k : ℝ) / ((2 : ℕ) : ℝ) < (renderW.duration : ℝ) ∧
        buf.getD k 0 = genSquare renderW.freq ((k : ℝ) / ((2 : ℕ) : ℝ)) * renderW.amplitude :=
  C1_render_length_and_timebase renderW 2 genSquare rfl (by decide) (by decide)

/-! ### Spectrum analysis -/

theorem get_fft_fst (R : ℕ) (sound : List ℝ) :
    (get_fft R sound).1 = rfftfreq sound.length (1 / (R : ℝ)) := by
  simp only [get_fft, List.length_map]

theorem get_fft_snd (R : ℕ) (sound : List ℝ) :
    (get_fft R sound).2 = rfft_abs (sound.map (fun v => v / 2 ^ 31)) := rfl

theorem rfftfreq_length (n : ℕ) (d : ℝ) : (rfftfreq n d).length = n / 2 + 1 := by
  unfold rfftfreq
  rw [List.length_map, List.length_range]

theorem rfftfreq_getD (n : ℕ) (d : ℝ) (k : ℕ) (h : k < n / 2 + 1) :
    (rfftfreq n d).getD k 0 = (k : ℝ) * (1 / ((n : ℝ) * d)) :=
  range_map_getD _ _ _ h

/-- C5: analyze on a buffer of N ≥ 1 samples at positive rate R returns
N/2 + 1 frequency bins and as many magnitudes; the bins start at 0, are
non-negative, consecutive bins are R/N apart, the sequence is strictly
increasing, and the last bin is within half a bin spacing of R/2 (so it is
exactly R/2 for even N). -/
theorem C5_fft_bin_layout (R : ℕ) (sound : List ℝ)
    (hN : 1 ≤ sound.length) (hR : 0 < R) :
    (get_fft R sound).1.length = sound.length / 2 + 1 ∧
    (get_fft R sound).2.length = (get_fft R sound).1.length ∧
    (get_fft R sound).1.getD 0 0 = 0 ∧
    (∀ k, k < sound.length / 2 →
      (get_fft R sound).1.getD (k + 1) 0 =
        (get_fft R sound).1.getD k 0 + (R : ℝ) / (sound.length : ℝ)) ∧
    (∀ i j, i < j → j < (get_fft R sound).1.length →
      (get_fft R sound).1.getD i 0 < (get_fft R sound).1.getD j 0) ∧
    (∀ k, k < (get_fft R sound).1.length → 0 ≤ (get_fft R sound).1.getD k 0) ∧
    0 ≤ (R : ℝ) / 2 - (get_fft R sound).1.getD (sound.length / 2) 0 ∧
    (R : ℝ) / 2 - (get_fft R sound).1.getD (sound.length / 2) 0 ≤
      (R : ℝ) / (2 * (sound.length : ℝ)) := by
  have hNpos : (0 : ℝ) < (sound.length : ℝ) := by exact_mod_cast hN
  have hRpos : (0 : ℝ) < (R : ℝ) := by exact_mod_cast hR
  have hcpos : (0 : ℝ) < (R : ℝ) / (sound.length : ℝ) := div_pos hRpos hNpos
  have key : ∀ k, k < sound.length / 2 + 1 →
      (get_fft R sound).1.getD k 0 = (k : ℝ) * ((R : ℝ) / (sound.length : ℝ)) := by
    intro k hk
    rw [get_fft_fst, rfftfreq_getD _ _ _ hk]
    congr 1
    rw [show (sound.length : ℝ) * (1 / (R : ℝ)) = (sound.length : ℝ) / (R : ℝ) by ring,
      one_div_div]
  have h1len : (get_fft R sound).1.length = sound.length / 2 + 1 := by
    rw [get_fft_fst, rfftfreq_length]
  have h2len : (get_fft R sound).2.length = sound.length / 2 + 1 := by
    rw [get_fft_snd]
    unfold rfft_abs
    rw [List.length_map, List.length_range, List.length_map]
  have ha1 : 2 * (sound.length / 2) ≤ sound.length := by omega
  have ha2 : sound.length ≤ 2 * (sound.length / 2) + 1 := by omega
  have haR1 : 2 * ((sound.length / 2 : ℕ) : ℝ) ≤ (sound.length : ℝ) := by exact_mod_cast ha1
  have haR2 : (sound.length : ℝ) ≤ 2 * ((sound.length / 2 : ℕ) : ℝ) + 1 := by exact_mod_cast ha2
  have e : (R : ℝ) / 2 -
      ((sound.length / 2 : ℕ) : ℝ) * ((R : ℝ) / (sound.length : ℝ)) =
      ((sound.length : ℝ) - 2 * ((sound.length / 2 : ℕ) : ℝ)) * (R : ℝ) /
        (2 * (sound.length : ℝ)) := by
    field_simp
    ring
  refine ⟨h1len, h2len.trans h1len.symm, ?_, ?_, ?_, ?_, ?_, ?_⟩
  · rw [key 0 (by omega)]
    simp
  · intro k hk
    rw [key k (by omega), key (k + 1) (by omega)]
    push_cast
    ring
  · intro i j hij hj
    rw [h1len] at hj
    rw [key i (by omega), key j hj]
    exact mul_lt_mul_of_pos_right (by exact_mod_cast hij) hcpos
  · intro k hk
    rw [h1len] at hk
    rw [key k hk]
    positivity
  · rw [key (sound.length / 2) (by omega), e]
    apply div_nonneg
    · apply mul_nonneg
      · linarith
      · linarith
    · linarith
  · rw [key (sound.length / 2) (by omega), e]
    rw [div_le_div_iff_of_pos_right (by linarith)]
    nlinarith

/-- The buffer used to witness the spectrum-layout theorem. -/
noncomputable def fftBuf : List ℝ := [1, 0, -1]

/-- Witness for C5 on the 3-sample buffer at rate 2. -/
theorem C5_fft_bin_layout_witness :
    (get_fft 2 fftBuf).1.length = fftBuf.length / 2 + 1 ∧
    (get_fft 2 fftBuf).2.length = (get_fft 2 fftBuf).1.length ∧
    (get_fft 2 fftBuf).1.getD 0 0 = 0 ∧
    (∀ k, k < fftBuf.length / 2 →
      (get_fft 2 fftBuf).1.getD (k + 1) 0 =
        (get_fft 2 fftBuf).1.getD k 0 + ((2 : ℕ) : ℝ) / (fftBuf.length : ℝ)) ∧
    (∀ i j, i < j → j < (get_fft 2 fftBuf).1.length →
      (get_fft 2 fftBuf).1.getD i 0 < (get_fft 2 fftBuf).1.getD j 0) ∧
    (∀ k, k < (get_fft 2 fftBuf).1.length → 0 ≤ (get_fft 2 fftBuf).1.getD k 0) ∧
    0 ≤ ((2 : ℕ) : ℝ) / 2 - (get_fft 2 fftBuf).1.getD (fftBuf.length / 2) 0 ∧
    ((2 : ℕ) : ℝ) / 2 - (get_fft 2 fftBuf).1.getD (fftBuf.length / 2) 0 ≤
      ((2 : ℕ) : ℝ) / (2 * (fftBuf.length : ℝ)) :=
  C5_fft_bin_layout 2 fftBuf (by simp [fftBuf]) (by decide)

theorem map_div_getD (x : List ℝ) (c : ℝ) (j : ℕ) :
    (x.map (fun v => v / c)).getD j 0 = x.getD j 0 / c := by
  rcases Nat.lt_or_ge j x.length with h | h
  · rw [List.getD_eq_getElem _ _ (by simpa using h), List.getD_eq_getElem _ _ h,
      List.getElem_map]
  · rw [List.getD_eq_default _ _ (by simpa using h), List.getD_eq_default _ _ h, zero_div]

theorem rfft_coeff_div (x : List ℝ) (c : ℝ) (k : ℕ) :
    rfft_coeff (x.map (fun v => v / c)) k = rfft_coeff x k / (c : ℂ) := by
  unfold rfft_coeff
  rw [List.length_map, Finset.sum_div]
  refine Finset.sum_congr rfl ?_
  intro j hj
  rw [map_div_getD]
  push_cast
  ring

/-- C6: the magnitude sequence of get_fft is exactly the elementwise
absolute value of the one-sided real DFT of the buffer divided by 2³¹; the
constant 2³¹ is the only scaling applied and does not depend on the sample
rate or the buffer length, and the transform is taken over exactly the
buffer's own N samples — no windowing, no zero-padding — giving N/2 + 1
magnitudes. -/
theorem C6_fft_normalization (R : ℕ) (sound : List ℝ) :
    (get_fft R sound).2 =
      (List.range (sound.length / 2 + 1)).map
        (fun k => Complex.abs (rfft_coeff sound k) / 2 ^ 31) ∧
    (∀ rate2 : ℕ, (get_fft rate2 sound).2 = (get_fft R sound).2) ∧
    (get_fft R sound).2.length = sound.length / 2 + 1 := by
  have hmain : (get_fft R sound).2 =
      (List.range (sound.length / 2 + 1)).map
        (fun k => Complex.abs (rfft_coeff sound k) / 2 ^ 31) := by
    rw [get_fft_snd]
    unfold rfft_abs
    rw [List.length_map]
    have hfun : ∀ k ∈ List.range (sound.length / 2 + 1),
        Complex.abs (rfft_coeff (sound.map (fun v => v / 2 ^ 31)) k) =
        Complex.abs (rfft_coeff sound k) / 2 ^ 31 := by
      intro k _
      rw [rfft_coeff_div, map_div₀]
      congr 1
      rw [Complex.abs_ofReal, abs_of_nonneg (by positivity)]
    exact List.map_congr_left hfun
  refine ⟨hmain, fun rate2 => by rw [get_fft_snd, get_fft_snd], ?_⟩
  rw [hmain, List.length_map, List.length_range]
